import Mathlib

/-!
Verification of the Miden processor core against its specification.

This file shallowly embeds the processor sources:
  - `processor/src/stack/overflow.rs` (the `OverflowTable`),
  - `processor/src/lib.rs` (the recursive block executor `Process`),
  - `processor/src/errors.rs` (`ExecutionError`),
  - `processor/src/debug.rs` (`VmState`, `VmStateIterator`),
and proves or refutes the frozen claims about them.

Machine integers (`usize`) are modelled as `Nat`; `Vec<T>` as `List T`;
`BTreeMap<usize, V>` as an association list sorted by key; fallible Rust
functions as `Except`; `panic!`/`unreachable!` as a distinguished outcome
constructor; the unbounded `while` loop of `execute_loop_block` is made total
with an explicit fuel parameter (fuel exhaustion is its own outcome, distinct
from every result the Rust code can produce).
-/

/-- The modulus of the prime field used by the VM (the 64-bit field of the
host `winterfell` crate: 2^64 - 2^32 + 1).  The spec leaves the modulus
abstract; none of the claims below depends on its value beyond `0 ≠ 1`. -/
def MidenPrime : Nat := 2 ^ 64 - 2 ^ 32 + 1

/-- Field element `F` (`vm_core::Felt`).  Only construction and equality are
needed by the claims, so the field structure is not developed. -/
abbrev Felt : Type := Fin MidenPrime

/-- Mirror of `Felt::new(u64)`: reduce the integer into the field. -/
def Felt.new (n : Nat) : Felt := ⟨n % MidenPrime, Nat.mod_lt _ (by decide)⟩

instance : OfNat Felt n := ⟨Felt.new n⟩

-- OVERFLOW TABLE (processor/src/stack/overflow.rs)

/-- Sorted-association-list model of `BTreeMap<usize, Vec<Felt>>::insert`:
insert keeping keys strictly increasing, replacing an existing key. -/
def btreeInsert (k : Nat) (v : List Felt) :
    List (Nat × List Felt) → List (Nat × List Felt)
  | [] => [(k, v)]
  | (k', v') :: rest =>
    if k < k' then (k, v) :: (k', v') :: rest
    else if k = k' then (k, v) :: rest
    else (k', v') :: btreeInsert k v rest

/-- Mirror of `OverflowTable`: the active overflow values, the per-step
snapshot map (`BTreeMap` as a sorted association list), and the tracing flag. -/
structure OverflowTable where
  active : List Felt
  trace : List (Nat × List Felt)
  trace_enabled : Bool
deriving DecidableEq

/-- Mirror of `OverflowTable::new`. -/
def OverflowTable.new (trace_enabled : Bool) : OverflowTable :=
  { active := [], trace := [], trace_enabled := trace_enabled }

/-- Mirror of `OverflowTable::push`: append to `active`; when tracing, record
a clone of `active` at `step`. -/
def OverflowTable.push (t : OverflowTable) (step : Nat) (value : Felt) :
    OverflowTable :=
  let active := t.active ++ [value]
  { active := active
    trace := if t.trace_enabled then btreeInsert step active t.trace else t.trace
    trace_enabled := t.trace_enabled }

/-- Mirror of `OverflowTable::pop`: remove the last element of `active`; when
something was removed and tracing is on, record the shrunk `active` at `step`.
Rust mutates `self` and returns `Option<Felt>`; we return both. -/
def OverflowTable.pop (t : OverflowTable) (step : Nat) :
    Option Felt × OverflowTable :=
  match t.active.getLast? with
  | none => (none, t)
  | some v =>
    let active := t.active.dropLast
    (some v,
     { active := active
       trace := if t.trace_enabled then btreeInsert step active t.trace else t.trace
       trace_enabled := t.trace_enabled })

/-- Mirror of `OverflowTable::append_state_into`: extend `values` with the
snapshot of greatest key `≤ step` (`self.trace.range(0..=step).last()`), if
one exists. -/
def OverflowTable.append_state_into (t : OverflowTable) (step : Nat)
    (values : List Felt) : List Felt :=
  match (t.trace.filter (fun e => e.1 ≤ step)).getLast? with
  | some x => values ++ x.2
  | none => values

/-- Mirror of `OverflowTable::append_into`:
`vec.extend_from_slice(&self.active.as_slice()[..size])`.  The slice index
panics when `size > active.len()`; the panic is modelled as `none`. -/
def OverflowTable.append_into (t : OverflowTable) (size : Nat)
    (vec : List Felt) : Option (List Felt) :=
  if size ≤ t.active.length then some (vec ++ t.active.take size) else none

/-- The snapshot that `append_state_into` appends for `step`: the value of the
greatest trace key `≤ step`, or `[]` when no such entry exists. -/
def snapshotOf (t : OverflowTable) (step : Nat) : List Felt :=
  ((t.trace.filter (fun e => e.1 ≤ step)).getLast?.map Prod.snd).getD []

-- Mutation sequences over the overflow table, used to state the history claims.

/-- One mutation of the overflow table, tagged with the clock step at which the
executor performs it. -/
inductive StackMut where
  | push (step : Nat) (value : Felt)
  | pop (step : Nat)
deriving DecidableEq

/-- Step at which a mutation occurs. -/
def StackMut.step : StackMut → Nat
  | .push s _ => s
  | .pop s => s

/-- Apply one mutation to the table (the popped value is discarded). -/
def applyMut (t : OverflowTable) : StackMut → OverflowTable
  | .push s v => t.push s v
  | .pop s => (t.pop s).2

/-- Apply a sequence of mutations left to right. -/
def applyMuts (t : OverflowTable) (ms : List StackMut) : OverflowTable :=
  ms.foldl applyMut t

/-- Reference replay of a mutation sequence on a plain list: a push appends,
a pop drops the last element (a pop of an empty list is a no-op, as in
`Vec::pop`).  This is the spec's "pushes minus pops, in insertion order". -/
def replay (l : List Felt) : List StackMut → List Felt
  | [] => l
  | .push _ v :: ms => replay (l ++ [v]) ms
  | .pop _ :: ms => replay l.dropLast ms

/-- Mutations are applied at non-decreasing clock steps. -/
def StepsMono (ms : List StackMut) : Prop :=
  (ms.map StackMut.step).Pairwise (fun a b => a ≤ b)

instance : DecidablePred StepsMono := fun ms =>
  List.instDecidablePairwise (ms.map StackMut.step)

/-- The mutation sequence of the `test_overflow_trace` unit test. -/
def exampleMuts : List StackMut :=
  [.push 0 (Felt.new 1), .push 1 (Felt.new 2), .push 2 (Felt.new 3),
   .push 3 (Felt.new 4), .pop 4, .pop 5, .pop 5, .push 6 (Felt.new 5)]

/-- The table obtained by running the example mutation sequence with tracing
enabled. -/
def exampleTable : OverflowTable :=
  applyMuts (OverflowTable.new true) exampleMuts

-- BLOCK EXECUTOR (processor/src/lib.rs)

/-- Micro-operations.  Modelled from the spec: the `operations` module is not
under `src/`; the structural executor uses only `Noop` and `Drop`, and `Push`
is included as a representative user operation ("push(F) — insert at
position 0").  Every operation advances the clock by exactly one. -/
inductive Operation where
  | Noop
  | Drop
  | Push (v : Felt)
deriving DecidableEq

/-- Code block sum type (`vm_core::program::blocks::CodeBlock`).  Modelled from
the spec: `vm_core` is not under `src/`.  `Span` carries its operation batches;
`Proxy` carries only an identifier standing for the referenced hash.  `Other`
stands for the block variants beyond the five listed ones, which the executor's
wildcard match arm rejects as "unknown block variant". -/
inductive CodeBlock where
  | Join (first second : CodeBlock)
  | Split (on_true on_false : CodeBlock)
  | Loop (body : CodeBlock)
  | Span (op_batches : List (List Operation))
  | Proxy (hash : Nat)
  | Other (id : Nat)
deriving DecidableEq

/-- Mirror of `processor/src/errors.rs::ExecutionError`.  `AdviceSetError` is
not under `src/`; its three carriers are kept abstract via a `Nat` tag. -/
inductive ExecutionError where
  | UnsupportedCodeBlock (b : CodeBlock)
  | UnexecutableCodeBlock (b : CodeBlock)
  | NotBinaryValue (v : Felt)
  | StackUnderflow (site : String) (clk : Nat)
  | DivideByZero (clk : Nat)
  | FailedAssertion (clk : Nat)
  | EmptyAdviceTape (clk : Nat)
  | AdviceSetNotFound (root : Nat)
  | AdviceSetLookupFailed (e : Nat)
  | AdviceSetUpdateFailed (e : Nat)
  | InvalidFmpValue (old new : Felt)
  | NotU32Value (v : Felt)
deriving DecidableEq

/-- Decoder notifications (`processor/src/decoder.rs`, not under `src/`).
Modelled from the spec §4.5: the decoder is an observer; we record the event
sequence.  Events carry the payloads the spec names (predicates, batches,
user operations). -/
inductive DecoderEvent where
  | startJoin
  | endJoin
  | startSplit (cond : Felt)
  | endSplit
  | startLoop (cond : Felt)
  | repeatLoop
  | endLoop
  | startSpan
  | respan (batch : List Operation)
  | userOp (op : Operation)
  | endSpan
deriving DecidableEq

/-- The claim-relevant state of `Process`: the logical operand stack (top
first), the system clock, and the decoder event log.  The co-processors and
memory are not touched by the structural executor claims.  Modelled from the
spec where the corresponding modules (`system`, `stack`, `decoder`) are not
under `src/`. -/
structure Process where
  stack : List Felt
  clk : Nat
  events : List DecoderEvent
deriving DecidableEq

/-- Record a decoder notification. -/
def Process.notify (p : Process) (e : DecoderEvent) : Process :=
  { p with events := p.events ++ [e] }

/-- Mirror of `Stack::peek` per spec §4.2: the top element; fails
`StackUnderflow` when the stack is logically empty. -/
def Process.peek (p : Process) : Except ExecutionError Felt :=
  match p.stack with
  | [] => .error (.StackUnderflow "peek" p.clk)
  | v :: _ => .ok v

/-- Mirror of `Process::execute_op` for the modelled operations, per spec:
every micro-operation advances `clk` by one; `Drop` removes the top (failing
`StackUnderflow` on an empty stack); `Push` inserts at position 0. -/
def executeOp (p : Process) (op : Operation) : Except ExecutionError Process :=
  match op with
  | .Noop => .ok { p with clk := p.clk + 1 }
  | .Drop =>
    match p.stack with
    | [] => .error (.StackUnderflow "drop" p.clk)
    | _ :: rest => .ok { p with stack := rest, clk := p.clk + 1 }
  | .Push v => .ok { p with stack := v :: p.stack, clk := p.clk + 1 }

/-- Outcome of executing a code block.  `panic` models a Rust
`unreachable!`/`panic!`; `nofuel` is the artefact of making the unbounded
`while` loop total and is distinct from every outcome the Rust code returns. -/
inductive ExecOut where
  | ok (p : Process)
  | err (e : ExecutionError)
  | panic
  | nofuel
deriving DecidableEq

/-- Execute the operations of one batch: `execute_op(op)` then
`decoder.execute_user_op(op)` for each op, stopping at the first error. -/
def execSpanOps (p : Process) : List Operation → Except ExecutionError Process
  | [] => .ok p
  | op :: rest =>
    match executeOp p op with
    | .error e => .error e
    | .ok p' => execSpanOps (p'.notify (.userOp op)) rest

/-- Execute the batches after the first one, each preceded by a RESPAN
notification and a `Noop`. -/
def execSpanBatches (p : Process) :
    List (List Operation) → Except ExecutionError Process
  | [] => .ok p
  | batch :: rest =>
    match executeOp (p.notify (.respan batch)) .Noop with
    | .error e => .error e
    | .ok p1 =>
      match execSpanOps p1 batch with
      | .error e => .error e
      | .ok p2 => execSpanBatches p2 rest

/-- Mirror of `Process::execute_span_block`.  The source indexes
`block.op_batches()[0]`, which panics on an empty batch list. -/
def execSpanBlock (p : Process) (batches : List (List Operation)) : ExecOut :=
  match batches with
  | [] => .panic
  | b0 :: rest =>
    match executeOp (p.notify .startSpan) .Noop with
    | .error e => .err e
    | .ok p1 =>
      match execSpanOps p1 b0 with
      | .error e => .err e
      | .ok p2 =>
        match execSpanBatches p2 rest with
        | .error e => .err e
        | .ok p3 =>
          match executeOp (p3.notify .endSpan) .Noop with
          | .error e => .err e
          | .ok p4 => .ok p4

/-- Mirror of the tail of `Process::execute_loop_block`: the END check.  The
argument `cond` is the loop's entry predicate (the local `condition` of the
Rust function).  When the top is `0` it is dropped and the decoder notified;
otherwise, when the entry predicate was `1`, the source hits `unreachable!`
(a panic); otherwise it returns `NotBinaryValue` with the top value. -/
def loopEnd (cond : Felt) (p : Process) : ExecOut :=
  match p.peek with
  | .error e => .err e
  | .ok top =>
    if top = 0 then
      match executeOp p .Drop with
      | .error e => .err e
      | .ok p1 => .ok (p1.notify .endLoop)
    else if cond = 1 then .panic
    else .err (.NotBinaryValue top)

/-- A pending unit of executor work: a code block, or the `while` part of a
loop (the source's `while self.stack.peek()? == ONE` together with the END
check that follows it).  `cond` is the captured entry predicate. -/
inductive ExecTask where
  | block (b : CodeBlock)
  | loopTail (body : CodeBlock) (cond : Felt)

/-- Mirror of `Process::execute_code_block` and the per-variant executors
(`execute_join_block`, `execute_split_block`, `execute_loop_block`,
`execute_span_block`).  `fuel` bounds the recursion depth and the number of
loop iterations; exhausting it yields `.nofuel`. -/
def run : Nat → ExecTask → Process → ExecOut
  | 0, _, _ => .nofuel
  | fuel + 1, .block b, p =>
    match b with
    | .Join first second =>
      match executeOp (p.notify .startJoin) .Noop with
      | .error e => .err e
      | .ok p1 =>
        match run fuel (.block first) p1 with
        | .ok p2 =>
          match run fuel (.block second) p2 with
          | .ok p3 =>
            match executeOp (p3.notify .endJoin) .Noop with
            | .error e => .err e
            | .ok p4 => .ok p4
          | out => out
        | out => out
    | .Split on_true on_false =>
      match p.peek with
      | .error e => .err e
      | .ok condition =>
        match executeOp (p.notify (.startSplit condition)) .Drop with
        | .error e => .err e
        | .ok p1 =>
          match
            (if condition = 1 then run fuel (.block on_true) p1
             else if condition = 0 then run fuel (.block on_false) p1
             else .err (.NotBinaryValue condition)) with
          | .ok p2 =>
            match executeOp (p2.notify .endSplit) .Noop with
            | .error e => .err e
            | .ok p3 => .ok p3
          | out => out
    | .Loop body =>
      match p.peek with
      | .error e => .err e
      | .ok condition =>
        let p0 := p.notify (.startLoop condition)
        if condition = 1 then
          match executeOp p0 .Drop with
          | .error e => .err e
          | .ok p1 =>
            match run fuel (.block body) p1 with
            | .ok p2 => run fuel (.loopTail body condition) p2
            | out => out
        else if condition = 0 then
          match executeOp p0 .Noop with
          | .error e => .err e
          | .ok p1 => loopEnd condition p1
        else .err (.NotBinaryValue condition)
    | .Span batches => execSpanBlock p batches
    | .Proxy h => .err (.UnexecutableCodeBlock (.Proxy h))
    | .Other id => .err (.UnsupportedCodeBlock (.Other id))
  | fuel + 1, .loopTail body cond, p =>
    match p.peek with
    | .error e => .err e
    | .ok top =>
      if top = 1 then
        match executeOp p .Drop with
        | .error e => .err e
        | .ok p1 =>
          match run fuel (.block body) (p1.notify .repeatLoop) with
          | .ok p2 => run fuel (.loopTail body cond) p2
          | out => out
      else loopEnd cond p

-- TOP-LEVEL EXECUTE (processor/src/lib.rs)

/-- Program wrapper.  Modelled from the spec: `vm_core::Script` is not under
`src/`; `execute` reads only `script.root()`, so the hash identity is
omitted. -/
structure Script where
  root : CodeBlock

/-- Program input envelope.  Modelled from the spec §6: the ordered initial
stack (first element ends up deepest) and the advice tape (unused by the
structural claims). -/
structure ProgramInputs where
  stack_init : List Felt
  advice_tape : List Felt

/-- Mirror of `Process::new`/`initialize`: fresh state with the initial stack
loaded.  Per spec §6 the first element of `stack_init` ends up deepest, so the
top of the logical stack is the last element. -/
def Process.initial (inputs : ProgramInputs) : Process :=
  { stack := inputs.stack_init.reverse, clk := 0, events := [] }

/-- Execution trace.  Modelled from the spec: the `trace` module is not under
`src/`; `ExecutionTrace::new(process)` packages the final process state, which
is all claim C6 needs. -/
structure ExecutionTrace where
  process : Process
deriving DecidableEq

/-- Mirror of `ExecutionTrace::new`. -/
def ExecutionTrace.new (p : Process) : ExecutionTrace := ⟨p⟩

/-- Result of the public `execute` entry point. -/
inductive ExecuteResult where
  | ok (t : ExecutionTrace)
  | err (e : ExecutionError)
  | panic
  | nofuel
deriving DecidableEq

/-- Mirror of `processor::execute`: build a process, execute the root block,
and on success wrap the final process into a trace; the `?` operator surfaces
the first error unmodified. -/
def execute (fuel : Nat) (script : Script) (inputs : ProgramInputs) :
    ExecuteResult :=
  match run fuel (.block script.root) (Process.initial inputs) with
  | .ok p => .ok (ExecutionTrace.new p)
  | .err e => .err e
  | .panic => .panic
  | .nofuel => .nofuel

-- DEBUG ITERATOR (processor/src/debug.rs)

/-- Word `W`: an ordered 4-tuple of field elements. -/
def Word : Type := Felt × Felt × Felt × Felt

/-- Mirror of `debug.rs::VmState`. -/
structure VmState where
  clk : Nat
  fmp : Felt
  stack : List Felt
  memory : List (Nat × Word)

/-- The pieces of the debug-enabled `Process` that `VmStateIterator::next`
reads.  Modelled from the spec §4.6: `system.clk()` is the final clock
`clk_final`, and the three reconstruction functions answer
`get_fmp_at`/`get_state_at`/`get_values_at` (their defining modules are not
under `src/`, and the iterator claims do not depend on their values). -/
structure DebugProcess where
  clk : Nat
  fmp_at : Nat → Felt
  state_at : Nat → List Felt
  values_at : Nat → List (Nat × Word)

/-- Mirror of `debug.rs::VmStateIterator`. -/
structure VmStateIterator where
  process : DebugProcess
  error : Option ExecutionError
  clk : Nat

/-- Mirror of `VmStateIterator::new`: stores `result.err()` and starts at
clock 0. -/
def VmStateIterator.new (process : DebugProcess)
    (result : Except ExecutionError Unit) : VmStateIterator :=
  { process := process
    error := match result with | .ok _ => none | .error e => some e
    clk := 0 }

/-- Mirror of `VmStateIterator::next`.  Rust mutates `self` and returns
`Option<Result<VmState, ExecutionError>>`; we return the yielded item and the
successor iterator state.  Note that in the error arm the source returns
`Some(Err(e.clone()))` without modifying `self.error` or `self.clk`. -/
def VmStateIterator.next (it : VmStateIterator) :
    Option (Except ExecutionError VmState) × VmStateIterator :=
  if it.clk > it.process.clk then
    match it.error with
    | some e => (some (.error e), it)
    | none => (none, it)
  else
    (some (.ok
      { clk := it.clk
        fmp := it.process.fmp_at it.clk
        stack := it.process.state_at it.clk
        memory := it.process.values_at it.clk }),
     { it with clk := it.clk + 1 })

-- HELPER DEFINITIONS FOR THEOREM STATEMENTS

/-- State transformer for the tail of `execute_split_block`: on success,
notify the decoder of the split END and execute one no-op; errors and panics
pass through. -/
def splitFinish : ExecOut → ExecOut
  | .ok p => .ok { p with events := p.events ++ [.endSplit], clk := p.clk + 1 }
  | out => out

/-- A concrete debug process with no state, used for counterexamples. -/
def emptyDebugProcess : DebugProcess :=
  { clk := 0, fmp_at := fun _ => 0, state_at := fun _ => [], values_at := fun _ => [] }

/-- Property named by claim C7: whenever an error is an
`UnexecutableCodeBlock`, the block it carries is a `Proxy`, and whenever it is
an `UnsupportedCodeBlock`, the block it carries is an unknown variant. -/
def DispatchShape (e : ExecutionError) : Prop :=
  (∀ b, e = .UnexecutableCodeBlock b → ∃ h, b = .Proxy h) ∧
  (∀ b, e = .UnsupportedCodeBlock b → ∃ id, b = .Other id)

-- THEOREMS

-- Basic lemmas about the overflow table.

theorem append_state_into_eq (t : OverflowTable) (step : Nat)
    (values : List Felt) :
    t.append_state_into step values = values ++ snapshotOf t step := by
  unfold OverflowTable.append_state_into snapshotOf
  cases (t.trace.filter (fun e => e.1 ≤ step)).getLast? <;> simp

theorem applyMuts_trace_enabled (ms : List StackMut) (t : OverflowTable) :
    (applyMuts t ms).trace_enabled = t.trace_enabled := by
  induction ms generalizing t with
  | nil => rfl
  | cons m ms ih =>
    show (applyMuts (applyMut t m) ms).trace_enabled = _
    rw [ih]
    cases m with
    | push s v => rfl
    | pop s =>
      show ((t.pop s).2).trace_enabled = _
      unfold OverflowTable.pop
      cases t.active.getLast? <;> rfl

theorem applyMuts_trace_of_disabled (ms : List StackMut) (t : OverflowTable)
    (h : t.trace_enabled = false) :
    (applyMuts t ms).trace = t.trace := by
  induction ms generalizing t with
  | nil => rfl
  | cons m ms ih =>
    show (applyMuts (applyMut t m) ms).trace = _
    have henabled : (applyMut t m).trace_enabled = false := by
      cases m with
      | push s v => exact h
      | pop s =>
        show ((t.pop s).2).trace_enabled = false
        unfold OverflowTable.pop
        cases t.active.getLast? <;> exact h
    rw [ih _ henabled]
    cases m with
    | push s v => simp [applyMut, OverflowTable.push, h]
    | pop s =>
      show ((t.pop s).2).trace = _
      unfold OverflowTable.pop
      cases t.active.getLast? with
      | none => rfl
      | some v => simp [h]

theorem applyMut_active_congr (m : StackMut) (t₁ t₂ : OverflowTable)
    (h : t₁.active = t₂.active) :
    (applyMut t₁ m).active = (applyMut t₂ m).active := by
  cases m with
  | push s v => simp [applyMut, OverflowTable.push, h]
  | pop s =>
    show ((t₁.pop s).2).active = ((t₂.pop s).2).active
    unfold OverflowTable.pop
    rw [h]
    cases t₂.active.getLast? <;> simp [h]

theorem applyMuts_active_congr (ms : List StackMut) (t₁ t₂ : OverflowTable)
    (h : t₁.active = t₂.active) :
    (applyMuts t₁ ms).active = (applyMuts t₂ ms).active := by
  induction ms generalizing t₁ t₂ with
  | nil => exact h
  | cons m ms ih => exact ih _ _ (applyMut_active_congr m t₁ t₂ h)

/-- C8: for every OverflowTable created with tracing disabled, after any
sequence of push and pop mutations the snapshot trace map remains empty,
`append_state_into` appends nothing at every step, while push and pop update
the active sequence exactly as they do when tracing is enabled. -/
theorem overflow_trace_disabled (ms : List StackMut) :
    (applyMuts (OverflowTable.new false) ms).trace = [] ∧
    (∀ step values,
      (applyMuts (OverflowTable.new false) ms).append_state_into step values
        = values) ∧
    (applyMuts (OverflowTable.new false) ms).active
      = (applyMuts (OverflowTable.new true) ms).active := by
  have htr : (applyMuts (OverflowTable.new false) ms).trace = [] :=
    applyMuts_trace_of_disabled ms _ rfl
  refine ⟨htr, ?_, applyMuts_active_congr ms _ _ rfl⟩
  intro step values
  rw [append_state_into_eq]
  unfold snapshotOf
  rw [htr]
  simp

/-- C9: popping an OverflowTable whose active sequence is empty returns `None`
and leaves the table entirely unchanged — the active sequence stays empty and
the snapshot trace map is not modified, so all later snapshot reconstructions
are unaffected by the failed pop. -/
theorem overflow_pop_empty (t : OverflowTable) (step : Nat)
    (h : t.active = []) :
    t.pop step = (none, t) := by
  unfold OverflowTable.pop
  rw [h]
  rfl

/-- Witness for `overflow_pop_empty` at a concrete table. -/
theorem overflow_pop_empty_witness :
    (OverflowTable.new true).active = [] ∧
    (OverflowTable.new true).pop 7 = (none, OverflowTable.new true) :=
  ⟨rfl, overflow_pop_empty (OverflowTable.new true) 7 rfl⟩

/-- C10: for `size ≤ active.length`, `append_into` appends exactly the first
`size` elements of the active sequence, in order (the table itself is read
only); for any larger size the slice access is out of bounds, so the error
branch (`none`, the panic) is reachable exactly when the precondition is
violated. -/
theorem overflow_append_into_spec (t : OverflowTable) (size : Nat)
    (vec : List Felt) (h : size ≤ t.active.length) :
    t.append_into size vec = some (vec ++ t.active.take size) ∧
    (t.active.take size).length = size ∧
    (∀ s, t.active.length < s → t.append_into s vec = none) := by
  refine ⟨?_, ?_, ?_⟩
  · unfold OverflowTable.append_into
    rw [if_pos h]
  · rw [List.length_take]
    omega
  · intro s hs
    unfold OverflowTable.append_into
    rw [if_neg (by omega)]

/-- Witness for `overflow_append_into_spec` at a concrete table. -/
theorem overflow_append_into_spec_witness :
    1 ≤ (OverflowTable.mk [Felt.new 1, Felt.new 2] [] false).active.length ∧
    (OverflowTable.mk [Felt.new 1, Felt.new 2] [] false).append_into 1
        [Felt.new 9]
      = some ([Felt.new 9] ++ [Felt.new 1, Felt.new 2].take 1) :=
  ⟨by decide,
   (overflow_append_into_spec (OverflowTable.mk [Felt.new 1, Felt.new 2] [] false)
     1 [Felt.new 9] (by decide)).1⟩

/-- C3: the snapshot sequence of the `test_overflow_trace` scenario — after
`push(0,1), push(1,2), push(2,3), push(3,4), pop(4), pop(5), pop(5),
push(6,5)` on a tracing table, `append_state_into` onto an empty vector gives
`[1,2]` at step 1, `[1,2,3]` at step 2, `[1,2,3,4]` at step 3, `[1,2,3]` at
step 4, `[1]` at step 5 and `[1,5]` at step 6. -/
theorem overflow_trace_example :
    exampleTable.append_state_into 1 [] = [Felt.new 1, Felt.new 2] ∧
    exampleTable.append_state_into 2 []
      = [Felt.new 1, Felt.new 2, Felt.new 3] ∧
    exampleTable.append_state_into 3 []
      = [Felt.new 1, Felt.new 2, Felt.new 3, Felt.new 4] ∧
    exampleTable.append_state_into 4 []
      = [Felt.new 1, Felt.new 2, Felt.new 3] ∧
    exampleTable.append_state_into 5 [] = [Felt.new 1] ∧
    exampleTable.append_state_into 6 [] = [Felt.new 1, Felt.new 5] := by
  refine ⟨?_, ?_, ?_, ?_, ?_, ?_⟩ <;> decide

-- Debug iterator (claim C1).

/-- C1 fails on the code: for an execution that ended with an error
(`clk_final = 0`, stored error `NotBinaryValue 5`), the first call to `next`
yields the `Ok` snapshot at clock 0; the second call yields the stored error;
but the error is never cleared and the iterator state is returned unchanged,
so the third call yields `Some(Err(..))` AGAIN — the claim demands `None`
after the error has been yielded once.  The last conjunct shows the iterator
state reproduces itself, so every further call also yields the error. -/
theorem vm_state_iterator_error_repeats :
    ((VmStateIterator.new emptyDebugProcess
        (.error (.NotBinaryValue (Felt.new 5)))).next.2.next.1
      = some (.error (.NotBinaryValue (Felt.new 5)))) ∧
    ((VmStateIterator.new emptyDebugProcess
        (.error (.NotBinaryValue (Felt.new 5)))).next.2.next.2.next.1
      = some (.error (.NotBinaryValue (Felt.new 5)))) ∧
    ((VmStateIterator.new emptyDebugProcess
        (.error (.NotBinaryValue (Felt.new 5)))).next.2.next.2
      = (VmStateIterator.new emptyDebugProcess
          (.error (.NotBinaryValue (Felt.new 5)))).next.2) :=
  ⟨rfl, rfl, rfl⟩

/-- When no error is stored, the iterator does terminate right after the last
snapshot: this half of claim C1 holds on the code. -/
theorem vm_state_iterator_ok_terminates (it : VmStateIterator)
    (herr : it.error = none) (hclk : it.process.clk < it.clk) :
    it.next = (none, it) := by
  unfold VmStateIterator.next
  rw [if_pos hclk, herr]

/-- Witness for `vm_state_iterator_ok_terminates` at a concrete iterator. -/
theorem vm_state_iterator_ok_terminates_witness :
    (VmStateIterator.mk emptyDebugProcess none 1).error = none ∧
    (VmStateIterator.mk emptyDebugProcess none 1).process.clk
      < (VmStateIterator.mk emptyDebugProcess none 1).clk ∧
    (VmStateIterator.mk emptyDebugProcess none 1).next
      = (none, VmStateIterator.mk emptyDebugProcess none 1) :=
  ⟨rfl, by decide,
   vm_state_iterator_ok_terminates (VmStateIterator.mk emptyDebugProcess none 1)
     rfl (by decide)⟩

-- Loop END check (claim C2).

/-- C2 fails on the code: a Loop whose entry predicate is `1` and whose body
leaves the non-binary value `5` on top reaches the loop END with top `5`; the
source then takes the `condition == ONE` arm and hits `unreachable!` — a
panic — instead of returning `NotBinaryValue(5)`.  The second conjunct
isolates the END check itself (`loopEnd` with entry predicate `1` and top
`5`), and the third conjunct records that the panic is not the
`NotBinaryValue` outcome the claim (and the spec's design note) requires. -/
theorem loop_end_nonbinary_panics :
    run 2 (.block (.Loop (.Span [[.Push (Felt.new 5)]])))
        ⟨[Felt.new 1, Felt.new 0], 0, []⟩ = .panic ∧
    loopEnd (Felt.new 1) ⟨[Felt.new 5], 4, []⟩ = .panic ∧
    loopEnd (Felt.new 1) ⟨[Felt.new 5], 4, []⟩
      ≠ .err (.NotBinaryValue (Felt.new 5)) := by
  refine ⟨by decide, by decide, by decide⟩

-- Split block (claim C5).

/-- C5: executing a Split block on a stack with top `v`: the executor reads
(but does not pop) `v`, notifies the decoder of the split start with predicate
`v`, executes one DROP micro-op (removing `v`, advancing the clock by one),
then recurses into `on_true` when `v = 1` and into `on_false` when `v = 0`,
and otherwise returns `NotBinaryValue v`; on the non-error paths it then
notifies the decoder of the split end and executes one no-op (`splitFinish`). -/
theorem split_block_semantics (fuel : Nat) (on_true on_false : CodeBlock)
    (v : Felt) (rest : List Felt) (clk : Nat) (evs : List DecoderEvent) :
    run (fuel + 1) (.block (.Split on_true on_false)) ⟨v :: rest, clk, evs⟩ =
      (if v = 1 then
        splitFinish (run fuel (.block on_true)
          ⟨rest, clk + 1, evs ++ [.startSplit v]⟩)
      else if v = 0 then
        splitFinish (run fuel (.block on_false)
          ⟨rest, clk + 1, evs ++ [.startSplit v]⟩)
      else .err (.NotBinaryValue v)) := by
  have hstep :
      run (fuel + 1) (.block (.Split on_true on_false)) ⟨v :: rest, clk, evs⟩ =
        (match
          (if v = 1 then
            run fuel (.block on_true) ⟨rest, clk + 1, evs ++ [.startSplit v]⟩
           else if v = 0 then
            run fuel (.block on_false) ⟨rest, clk + 1, evs ++ [.startSplit v]⟩
           else ExecOut.err (.NotBinaryValue v)) with
        | .ok p2 =>
          ExecOut.ok
            { p2 with events := p2.events ++ [.endSplit], clk := p2.clk + 1 }
        | out => out) := rfl
  rw [hstep]
  by_cases hv1 : v = 1
  · rw [if_pos hv1, if_pos hv1]
    cases run fuel (.block on_true) ⟨rest, clk + 1, evs ++ [.startSplit v]⟩ <;>
      rfl
  · rw [if_neg hv1, if_neg hv1]
    by_cases hv0 : v = 0
    · rw [if_pos hv0, if_pos hv0]
      cases run fuel (.block on_false) ⟨rest, clk + 1, evs ++ [.startSplit v]⟩ <;>
        rfl
    · rw [if_neg hv0, if_neg hv0]

-- Top-level execute (claim C6).

/-- C6: `execute` is all-or-nothing — it returns `Ok` with a complete trace
exactly when executing the root block tree succeeds (and the trace packages
that final state), it returns `Err e` exactly when block execution raised `e`
(the first error, surfaced unmodified), and the result type makes returning a
trace together with an error impossible. -/
theorem execute_all_or_nothing (fuel : Nat) (script : Script)
    (inputs : ProgramInputs) :
    ((∃ t, execute fuel script inputs = .ok t) ↔
       (∃ p, run fuel (.block script.root) (Process.initial inputs) = .ok p)) ∧
    (∀ e, execute fuel script inputs = .err e ↔
       run fuel (.block script.root) (Process.initial inputs) = .err e) ∧
    (∀ t, execute fuel script inputs = .ok t →
       run fuel (.block script.root) (Process.initial inputs) = .ok t.process) := by
  cases hr : run fuel (.block script.root) (Process.initial inputs) <;>
    simp [execute, hr, ExecutionTrace.new]

/-- Witness for `execute_all_or_nothing`: a one-operation span executes
successfully end to end. -/
theorem execute_all_or_nothing_witness :
    ∃ t, execute 1 ⟨.Span [[.Noop]]⟩ ⟨[], []⟩ = .ok t :=
  (execute_all_or_nothing 1 ⟨.Span [[.Noop]]⟩ ⟨[], []⟩).1.mpr
    ⟨⟨[], 3, [.startSpan, .userOp .Noop, .endSpan]⟩, by decide⟩

-- Dispatch errors (claim C7).

theorem dispatchShape_stackUnderflow (s : String) (c : Nat) :
    DispatchShape (.StackUnderflow s c) :=
  ⟨fun _ h => (nomatch h), fun _ h => (nomatch h)⟩

theorem dispatchShape_notBinary (v : Felt) :
    DispatchShape (.NotBinaryValue v) :=
  ⟨fun _ h => (nomatch h), fun _ h => (nomatch h)⟩

theorem notify_stack (p : Process) (e : DecoderEvent) :
    (p.notify e).stack = p.stack := rfl

theorem peek_error_shape (p : Process) (e : ExecutionError)
    (h : p.peek = .error e) : DispatchShape e := by
  unfold Process.peek at h
  cases hst : p.stack with
  | nil =>
    rw [hst] at h
    injection h with h
    exact h ▸ dispatchShape_stackUnderflow _ _
  | cons v rest =>
    rw [hst] at h
    cases h

theorem peek_ok_stack (p : Process) (v : Felt) (h : p.peek = .ok v) :
    ∃ rest, p.stack = v :: rest := by
  unfold Process.peek at h
  cases hst : p.stack with
  | nil => rw [hst] at h; cases h
  | cons w rest =>
    rw [hst] at h
    injection h with h
    exact ⟨rest, by rw [h]⟩

theorem executeOp_error_shape (p : Process) (op : Operation)
    (e : ExecutionError) (h : executeOp p op = .error e) : DispatchShape e := by
  cases op with
  | Noop => cases h
  | Push v => cases h
  | Drop =>
    unfold executeOp at h
    cases hst : p.stack with
    | nil =>
      rw [hst] at h
      injection h with h
      exact h ▸ dispatchShape_stackUnderflow _ _
    | cons v rest => rw [hst] at h; cases h

theorem execSpanOps_error_shape (ops : List Operation) (p : Process)
    (e : ExecutionError) (h : execSpanOps p ops = .error e) :
    DispatchShape e := by
  induction ops generalizing p with
  | nil => cases h
  | cons op rest ih =>
    unfold execSpanOps at h
    cases hop : executeOp p op with
    | error e' =>
      rw [hop] at h
      injection h with h
      exact h ▸ executeOp_error_shape _ _ _ hop
    | ok p' =>
      rw [hop] at h
      exact ih _ h

theorem execSpanBatches_error_shape (batches : List (List Operation))
    (p : Process) (e : ExecutionError)
    (h : execSpanBatches p batches = .error e) : DispatchShape e := by
  induction batches generalizing p with
  | nil => cases h
  | cons batch rest ih =>
    unfold execSpanBatches at h
    simp only [executeOp] at h
    split at h
    next e' heq =>
      injection h with h
      exact h ▸ execSpanOps_error_shape _ _ _ heq
    next p2 heq => exact ih _ h

theorem execSpanBlock_err_shape (batches : List (List Operation)) (p : Process)
    (e : ExecutionError) (h : execSpanBlock p batches = .err e) :
    DispatchShape e := by
  cases batches with
  | nil => cases h
  | cons b0 rest =>
    unfold execSpanBlock at h
    simp only [executeOp] at h
    split at h
    next e' heq =>
      injection h with h
      exact h ▸ execSpanOps_error_shape _ _ _ heq
    next p2 heq =>
      split at h
      next e' heq2 =>
        injection h with h
        exact h ▸ execSpanBatches_error_shape _ _ _ heq2
      next p3 heq2 => cases h

theorem loopEnd_err_shape (cond : Felt) (p : Process) (e : ExecutionError)
    (h : loopEnd cond p = .err e) : DispatchShape e := by
  unfold loopEnd at h
  split at h
  next e' heq =>
    injection h with h
    exact h ▸ peek_error_shape _ _ heq
  next top heq =>
    split at h
    · split at h
      next e' heq2 =>
        injection h with h
        exact h ▸ executeOp_error_shape _ _ _ heq2
      next p1 heq2 => cases h
    · split at h
      · cases h
      · injection h with h
        exact h ▸ dispatchShape_notBinary _

theorem run_err_shape (fuel : Nat) :
    ∀ (t : ExecTask) (p : Process) (e : ExecutionError),
      run fuel t p = .err e → DispatchShape e := by
  induction fuel with
  | zero => intro t p e h; cases h
  | succ fuel ih =>
    intro t p e h
    cases t with
    | loopTail body cond =>
      simp only [run, executeOp, Process.notify] at h
      split at h
      next e' heq =>
        injection h with h
        exact h ▸ peek_error_shape _ _ heq
      next top heq =>
        split at h
        · split at h
          next e' heq2 =>
            injection h with h
            subst h
            cases hst : p.stack with
            | nil =>
              simp only [hst] at heq2
              injection heq2 with heq2
              exact heq2 ▸ dispatchShape_stackUnderflow _ _
            | cons w ws => simp only [hst] at heq2; cases heq2
          next p1 heq2 =>
            split at h
            next p2 hr => exact ih _ _ _ h
            next out hr => exact ih _ _ _ h
        · exact loopEnd_err_shape _ _ _ h
    | block b =>
      cases b with
      | Proxy hsh =>
        simp only [run] at h
        injection h with h
        refine h ▸ ⟨fun b hb => ?_, fun b hb => (nomatch hb)⟩
        cases hb
        exact ⟨hsh, rfl⟩
      | Other id =>
        simp only [run] at h
        injection h with h
        refine h ▸ ⟨fun b hb => (nomatch hb), fun b hb => ?_⟩
        cases hb
        exact ⟨id, rfl⟩
      | Span batches =>
        simp only [run] at h
        exact execSpanBlock_err_shape _ _ _ h
      | Join first second =>
        simp only [run, executeOp, Process.notify] at h
        split at h
        next p2 hr1 =>
          split at h
          next p3 hr2 => cases h
          next out hr2 => exact ih _ _ _ h
        next out hr1 => exact ih _ _ _ h
      | Split on_true on_false =>
        simp only [run, executeOp, Process.notify] at h
        split at h
        next e' heq =>
          injection h with h
          exact h ▸ peek_error_shape _ _ heq
        next cond heq =>
          split at h
          next e' heq2 =>
            injection h with h
            subst h
            cases hst : p.stack with
            | nil =>
              simp only [hst] at heq2
              injection heq2 with heq2
              exact heq2 ▸ dispatchShape_stackUnderflow _ _
            | cons w ws => simp only [hst] at heq2; cases heq2
          next p1 heq2 =>
            by_cases h1 : cond = 1
            · simp only [if_pos h1] at h
              split at h
              next p2 hr => cases h
              next out hr => exact ih _ _ _ h
            · simp only [if_neg h1] at h
              by_cases h0 : cond = 0
              · simp only [if_pos h0] at h
                split at h
                next p2 hr => cases h
                next out hr => exact ih _ _ _ h
              · simp only [if_neg h0] at h
                injection h with h
                exact h ▸ dispatchShape_notBinary _
      | Loop body =>
        simp only [run, executeOp, Process.notify] at h
        split at h
        next e' heq =>
          injection h with h
          exact h ▸ peek_error_shape _ _ heq
        next cond heq =>
          split at h
          · split at h
            next e' heq2 =>
              injection h with h
              subst h
              cases hst : p.stack with
              | nil =>
                simp only [hst] at heq2
                injection heq2 with heq2
                exact heq2 ▸ dispatchShape_stackUnderflow _ _
              | cons w ws => simp only [hst] at heq2; cases heq2
            next p1 heq2 =>
              split at h
              next p2 hr => exact ih _ _ _ h
              next out hr => exact ih _ _ _ h
          · split at h
            · exact loopEnd_err_shape _ _ _ h
            · injection h with h
              exact h ▸ dispatchShape_notBinary _

/-- C7: executing a `Proxy` block returns `UnexecutableCodeBlock` carrying
that block; executing a block of a variant other than Join, Split, Loop, Span
or Proxy returns `UnsupportedCodeBlock`; and conversely, whenever execution of
anything returns one of these two errors, the block carried by the error is a
`Proxy` (respectively an unknown variant) — no other block variant produces
either error. -/
theorem code_block_dispatch_errors :
    (∀ (fuel : Nat) (hsh : Nat) (p : Process),
      run (fuel + 1) (.block (.Proxy hsh)) p
        = .err (.UnexecutableCodeBlock (.Proxy hsh))) ∧
    (∀ (fuel : Nat) (id : Nat) (p : Process),
      run (fuel + 1) (.block (.Other id)) p
        = .err (.UnsupportedCodeBlock (.Other id))) ∧
    (∀ (fuel : Nat) (t : ExecTask) (p : Process) (b : CodeBlock),
      run fuel t p = .err (.UnexecutableCodeBlock b) → ∃ hsh, b = .Proxy hsh) ∧
    (∀ (fuel : Nat) (t : ExecTask) (p : Process) (b : CodeBlock),
      run fuel t p = .err (.UnsupportedCodeBlock b) → ∃ id, b = .Other id) := by
  refine ⟨fun fuel hsh p => rfl, fun fuel id p => rfl, ?_, ?_⟩
  · intro fuel t p b hrun
    exact (run_err_shape fuel t p _ hrun).1 b rfl
  · intro fuel t p b hrun
    exact (run_err_shape fuel t p _ hrun).2 b rfl

/-- Witness for `code_block_dispatch_errors`, applying every part at concrete
inputs and discharging the hypotheses by evaluation. -/
theorem code_block_dispatch_errors_witness :
    run 1 (.block (.Proxy 3)) ⟨[], 0, []⟩
      = .err (.UnexecutableCodeBlock (.Proxy 3)) ∧
    run 1 (.block (.Other 4)) ⟨[], 0, []⟩
      = .err (.UnsupportedCodeBlock (.Other 4)) ∧
    (∃ hsh, CodeBlock.Proxy 3 = .Proxy hsh) ∧
    (∃ id, CodeBlock.Other 4 = .Other id) :=
  ⟨code_block_dispatch_errors.1 0 3 ⟨[], 0, []⟩,
   code_block_dispatch_errors.2.1 0 4 ⟨[], 0, []⟩,
   code_block_dispatch_errors.2.2.1 1 (.block (.Proxy 3)) ⟨[], 0, []⟩ _ (by decide),
   code_block_dispatch_errors.2.2.2 1 (.block (.Other 4)) ⟨[], 0, []⟩ _ (by decide)⟩

-- Overflow snapshot law (claim C4).

theorem replay_append (ms₁ ms₂ : List StackMut) :
    ∀ l : List Felt, replay l (ms₁ ++ ms₂) = replay (replay l ms₁) ms₂ := by
  induction ms₁ with
  | nil => intro l; rfl
  | cons m ms ih =>
    intro l
    cases m with
    | push s v => exact ih (l ++ [v])
    | pop s => exact ih l.dropLast

theorem applyMuts_active (ms : List StackMut) :
    ∀ t : OverflowTable, (applyMuts t ms).active = replay t.active ms := by
  induction ms with
  | nil => intro t; rfl
  | cons m ms ih =>
    intro t
    have hstep : (applyMut t m).active = replay t.active [m] := by
      cases m with
      | push s v => rfl
      | pop s =>
        show ((t.pop s).2).active = t.active.dropLast
        unfold OverflowTable.pop
        cases hl : t.active.getLast? with
        | none =>
          rw [List.getLast?_eq_none_iff] at hl
          rw [hl]
          rfl
        | some v => rfl
    calc (applyMuts t (m :: ms)).active
        = (applyMuts (applyMut t m) ms).active := rfl
      _ = replay (applyMut t m).active ms := ih _
      _ = replay (replay t.active [m]) ms := by rw [hstep]
      _ = replay t.active (m :: ms) := (replay_append [m] ms t.active).symm

theorem mem_btreeInsert (l : List (Nat × List Felt)) (k : Nat) (v : List Felt) :
    ∀ e ∈ btreeInsert k v l, e = (k, v) ∨ e ∈ l := by
  induction l with
  | nil =>
    intro e he
    simp only [btreeInsert, List.mem_singleton] at he
    exact Or.inl he
  | cons kv rest ih =>
    obtain ⟨k', v'⟩ := kv
    intro e he
    simp only [btreeInsert] at he
    by_cases h1 : k < k'
    · rw [if_pos h1] at he
      rcases List.mem_cons.mp he with he | he
      · exact Or.inl he
      · exact Or.inr he
    · rw [if_neg h1] at he
      by_cases h2 : k = k'
      · rw [if_pos h2] at he
        rcases List.mem_cons.mp he with he | he
        · exact Or.inl he
        · exact Or.inr (List.mem_cons_of_mem _ he)
      · rw [if_neg h2] at he
        rcases List.mem_cons.mp he with he | he
        · exact Or.inr (he ▸ List.mem_cons_self _ _)
        · rcases ih e he with h | h
          · exact Or.inl h
          · exact Or.inr (List.mem_cons_of_mem _ h)

theorem mem_keys_btreeInsert (l : List (Nat × List Felt)) (k : Nat)
    (v : List Felt) (x : Nat) (hx : x ∈ (btreeInsert k v l).map Prod.fst) :
    x = k ∨ x ∈ l.map Prod.fst := by
  rcases List.mem_map.mp hx with ⟨e, he, hex⟩
  rcases mem_btreeInsert l k v e he with h | h
  · left; rw [← hex, h]
  · right; exact List.mem_map.mpr ⟨e, h, hex⟩

theorem btreeInsert_pairwise (l : List (Nat × List Felt)) (k : Nat)
    (v : List Felt)
    (h : (l.map Prod.fst).Pairwise (fun a b => a < b)) :
    ((btreeInsert k v l).map Prod.fst).Pairwise (fun a b => a < b) := by
  induction l with
  | nil => simp [btreeInsert]
  | cons kv rest ih =>
    obtain ⟨k', v'⟩ := kv
    simp only [List.map_cons, List.pairwise_cons] at h
    obtain ⟨hk', hrest⟩ := h
    simp only [btreeInsert]
    by_cases h1 : k < k'
    · rw [if_pos h1]
      simp only [List.map_cons, List.pairwise_cons]
      refine ⟨?_, hk', hrest⟩
      intro x hx
      rcases List.mem_cons.mp hx with hx | hx
      · omega
      · have := hk' x hx
        omega
    · rw [if_neg h1]
      by_cases h2 : k = k'
      · rw [if_pos h2]
        simp only [List.map_cons, List.pairwise_cons]
        exact ⟨fun x hx => h2 ▸ hk' x hx, hrest⟩
      · rw [if_neg h2]
        simp only [List.map_cons, List.pairwise_cons]
        refine ⟨?_, ih hrest⟩
        intro x hx
        rcases mem_keys_btreeInsert rest k v x hx with hx | hx
        · omega
        · exact hk' x hx

theorem btreeInsert_max (l : List (Nat × List Felt)) (k : Nat) (v : List Felt)
    (hb : ∀ e ∈ l, e.1 ≤ k)
    (hs : (l.map Prod.fst).Pairwise (fun a b => a < b)) :
    btreeInsert k v l = l.filter (fun e => e.1 < k) ++ [(k, v)] := by
  induction l with
  | nil => simp [btreeInsert]
  | cons kv rest ih =>
    obtain ⟨k', v'⟩ := kv
    have hk' : k' ≤ k := hb (k', v') (List.mem_cons_self _ _)
    simp only [List.map_cons, List.pairwise_cons] at hs
    simp only [btreeInsert]
    rw [if_neg (by omega : ¬ k < k')]
    by_cases h2 : k = k'
    · rw [if_pos h2]
      have hrest : rest = [] := by
        cases hr : rest with
        | nil => rfl
        | cons e es =>
          exfalso
          have h3 : k' < e.1 := hs.1 e.1 (by rw [hr]; simp)
          have h4 : e.1 ≤ k := hb e (by rw [hr]; simp)
          omega
      subst hrest
      subst h2
      rw [List.filter_cons]
      simp only [decide_eq_true_eq]
      rw [if_neg (by omega : ¬ (k, v').1 < k)]
      rfl
    · rw [if_neg h2]
      have h3 : k' < k := by omega
      rw [ih (fun e he => hb e (List.mem_cons_of_mem _ he)) hs.2]
      rw [List.filter_cons]
      simp only [decide_eq_true_eq]
      rw [if_pos (show ((k', v').1 < k) from h3)]
      rfl

theorem filter_btreeInsert_lt (l : List (Nat × List Felt)) (k s : Nat)
    (v : List Felt) (h : k < s) :
    (btreeInsert s v l).filter (fun e => e.1 ≤ k)
      = l.filter (fun e => e.1 ≤ k) := by
  induction l with
  | nil =>
    simp only [btreeInsert, List.filter_nil, List.filter_cons,
      decide_eq_true_eq]
    rw [if_neg (show ¬ ((s, v).1 ≤ k) by simp; omega)]
  | cons kv rest ih =>
    obtain ⟨k', v'⟩ := kv
    simp only [btreeInsert]
    by_cases h1 : s < k'
    · rw [if_pos h1, List.filter_cons]
      simp only [decide_eq_true_eq]
      rw [if_neg (show ¬ ((s, v).1 ≤ k) by simp; omega)]
    · rw [if_neg h1]
      by_cases h2 : s = k'
      · rw [if_pos h2, List.filter_cons, List.filter_cons]
        simp only [decide_eq_true_eq]
        rw [if_neg (show ¬ ((s, v).1 ≤ k) by simp; omega),
          if_neg (show ¬ ((k', v').1 ≤ k) by simp; omega)]
      · rw [if_neg h2, List.filter_cons, List.filter_cons]
        simp only [decide_eq_true_eq]
        by_cases h3 : (k', v').1 ≤ k
        · rw [if_pos h3, if_pos h3, ih]
        · rw [if_neg h3, if_neg h3, ih]

theorem snapshot_insert_law (tr : List (Nat × List Felt)) (s k : Nat)
    (A : List Felt)
    (hsorted : (tr.map Prod.fst).Pairwise (fun a b => a < b))
    (hb : ∀ e ∈ tr, e.1 ≤ s) :
    ((btreeInsert s A tr).filter (fun e => e.1 ≤ k)).getLast? =
      if s ≤ k then some (s, A)
      else (tr.filter (fun e => e.1 ≤ k)).getLast? := by
  by_cases hk : s ≤ k
  · rw [if_pos hk, btreeInsert_max tr s A hb hsorted, List.filter_append]
    have hone : [(s, A)].filter (fun e => e.1 ≤ k) = [(s, A)] := by
      simp [hk]
    rw [hone]
    have := List.getLast?_concat
      ((tr.filter (fun e => e.1 < s)).filter (fun e => e.1 ≤ k)) (a := (s, A))
    exact this
  · rw [if_neg hk, filter_btreeInsert_lt tr k s A (by omega)]

theorem steps_mono_append (ms : List StackMut) (m : StackMut)
    (h : StepsMono (ms ++ [m])) :
    StepsMono ms ∧ ∀ x ∈ ms.map StackMut.step, x ≤ m.step := by
  unfold StepsMono at h ⊢
  rw [List.map_append, List.pairwise_append] at h
  exact ⟨h.1, fun x hx => h.2.2 x hx m.step (by simp)⟩

theorem filter_steps_all (ms : List StackMut) (k : Nat)
    (h : ∀ x ∈ ms.map StackMut.step, x ≤ k) :
    ms.filter (fun m => m.step ≤ k) = ms :=
  List.filter_eq_self.mpr fun m hm =>
    decide_eq_true (h m.step (List.mem_map.mpr ⟨m, hm, rfl⟩))

theorem overflow_inv (ms : List StackMut) :
    StepsMono ms →
    (((applyMuts (OverflowTable.new true) ms).trace.map Prod.fst).Pairwise
        (fun a b => a < b)) ∧
    (∀ e ∈ (applyMuts (OverflowTable.new true) ms).trace,
        e.1 ∈ ms.map StackMut.step) ∧
    (∀ k, snapshotOf (applyMuts (OverflowTable.new true) ms) k
        = replay [] (ms.filter (fun m => m.step ≤ k))) := by
  induction ms using List.reverseRecOn with
  | nil =>
    intro _
    refine ⟨by simp [applyMuts, OverflowTable.new], ?_, ?_⟩
    · intro e he
      simp [applyMuts, OverflowTable.new] at he
    · intro k
      rfl
  | append_singleton ms m ih =>
    intro hmono
    obtain ⟨hmono', hbound⟩ := steps_mono_append ms m hmono
    obtain ⟨ihsorted, ihkeys, ihsnap⟩ := ih hmono'
    have hsplit : applyMuts (OverflowTable.new true) (ms ++ [m])
        = applyMut (applyMuts (OverflowTable.new true) ms) m := by
      unfold applyMuts
      exact List.foldl_concat applyMut (OverflowTable.new true) m ms
    have henabled : (applyMuts (OverflowTable.new true) ms).trace_enabled
        = true := applyMuts_trace_enabled ms (OverflowTable.new true)
    have hactive : (applyMuts (OverflowTable.new true) ms).active
        = replay [] ms := applyMuts_active ms (OverflowTable.new true)
    have htrbound : ∀ e ∈ (applyMuts (OverflowTable.new true) ms).trace,
        e.1 ≤ m.step := fun e he => hbound e.1 (ihkeys e he)
    have hfilterms : ∀ k, m.step ≤ k →
        ms.filter (fun x => x.step ≤ k) = ms := fun k hk =>
      filter_steps_all ms k (fun x hx => le_trans (hbound x hx) hk)
    -- The new table: active A, trace btreeInsert m.step A old (or unchanged
    -- on a failed pop).
    cases m with
    | push s v =>
      rw [hsplit]
      have htrbound' : ∀ e ∈ (applyMuts (OverflowTable.new true) ms).trace,
          e.1 ≤ s := htrbound
      have htr : (applyMut (applyMuts (OverflowTable.new true) ms)
            (.push s v)).trace
          = btreeInsert s ((applyMuts (OverflowTable.new true) ms).active
              ++ [v]) (applyMuts (OverflowTable.new true) ms).trace := by
        show (OverflowTable.push _ s v).trace = _
        unfold OverflowTable.push
        rw [henabled]
        simp
      have hact : (applyMut (applyMuts (OverflowTable.new true) ms)
            (.push s v)).active
          = (applyMuts (OverflowTable.new true) ms).active ++ [v] := rfl
      refine ⟨?_, ?_, ?_⟩
      · rw [htr]
        exact btreeInsert_pairwise _ _ _ ihsorted
      · intro e he
        rw [htr] at he
        rcases mem_btreeInsert _ _ _ e he with h | h
        · rw [h]
          simp [StackMut.step]
        · rw [List.map_append]
          exact List.mem_append_left _ (ihkeys e h)
      · intro k
        unfold snapshotOf
        rw [htr, snapshot_insert_law _ _ _ _ ihsorted htrbound',
          List.filter_append]
        by_cases hk : s ≤ k
        · rw [if_pos hk]
          have hfm : [StackMut.push s v].filter (fun x => x.step ≤ k)
              = [StackMut.push s v] := by
            simp [StackMut.step, hk]
          rw [hfm, hfilterms k hk, replay_append]
          simp [replay, hactive]
        · rw [if_neg hk]
          have hfm : [StackMut.push s v].filter (fun x => x.step ≤ k)
              = [] := by
            simp [StackMut.step]
            omega
          rw [hfm, List.append_nil]
          exact ihsnap k
    | pop s =>
      rw [hsplit]
      cases hl : (applyMuts (OverflowTable.new true) ms).active.getLast? with
      | none =>
        rw [List.getLast?_eq_none_iff] at hl
        have hid : applyMut (applyMuts (OverflowTable.new true) ms) (.pop s)
            = applyMuts (OverflowTable.new true) ms := by
          show ((applyMuts (OverflowTable.new true) ms).pop s).2 = _
          unfold OverflowTable.pop
          rw [hl]
          rfl
        rw [hid]
        refine ⟨ihsorted, ?_, ?_⟩
        · intro e he
          rw [List.map_append]
          exact List.mem_append_left _ (ihkeys e he)
        · intro k
          rw [List.filter_append]
          by_cases hk : s ≤ k
          · have hfm : [StackMut.pop s].filter (fun x => x.step ≤ k)
                = [StackMut.pop s] := by
              simp [StackMut.step, hk]
            rw [hfm, hfilterms k hk, replay_append]
            have hrep : replay [] ms = [] := by
              rw [← hactive, hl]
            rw [ihsnap k, hfilterms k hk, hrep]
            rfl
          · have hfm : [StackMut.pop s].filter (fun x => x.step ≤ k)
                = [] := by
              simp [StackMut.step]
              omega
            rw [hfm, List.append_nil]
            exact ihsnap k
      | some w =>
        have htrbound' : ∀ e ∈ (applyMuts (OverflowTable.new true) ms).trace,
            e.1 ≤ s := htrbound
        have htr : (applyMut (applyMuts (OverflowTable.new true) ms)
              (.pop s)).trace
            = btreeInsert s
                ((applyMuts (OverflowTable.new true) ms).active.dropLast)
                (applyMuts (OverflowTable.new true) ms).trace := by
          show ((applyMuts (OverflowTable.new true) ms).pop s).2.trace = _
          unfold OverflowTable.pop
          rw [hl, henabled]
          simp
        refine ⟨?_, ?_, ?_⟩
        · rw [htr]
          exact btreeInsert_pairwise _ _ _ ihsorted
        · intro e he
          rw [htr] at he
          rcases mem_btreeInsert _ _ _ e he with h | h
          · rw [h]
            simp [StackMut.step]
          · rw [List.map_append]
            exact List.mem_append_left _ (ihkeys e h)
        · intro k
          unfold snapshotOf
          rw [htr, snapshot_insert_law _ _ _ _ ihsorted htrbound',
            List.filter_append]
          by_cases hk : s ≤ k
          · rw [if_pos hk]
            have hfm : [StackMut.pop s].filter (fun x => x.step ≤ k)
                = [StackMut.pop s] := by
              simp [StackMut.step, hk]
            rw [hfm, hfilterms k hk, replay_append]
            simp [replay, hactive]
          · rw [if_neg hk]
            have hfm : [StackMut.pop s].filter (fun x => x.step ≤ k)
                = [] := by
              simp [StackMut.step]
              omega
            rw [hfm, List.append_nil]
            exact ihsnap k

/-- C4: for a tracing OverflowTable and any sequence of push/pop mutations at
non-decreasing steps, `append_state_into(k, out)` appends exactly the overflow
contents as they stood immediately after the last mutation at a step ≤ k —
equivalently the replay of the pushes and pops at steps ≤ k, in insertion
order (`replay`) — and appends nothing if no mutation occurred at a step
≤ k. -/
theorem overflow_snapshot_law (ms : List StackMut) (hmono : StepsMono ms)
    (k : Nat) (values : List Felt) :
    (applyMuts (OverflowTable.new true) ms).append_state_into k values
      = values ++ replay [] (ms.filter (fun m => m.step ≤ k)) ∧
    (ms.filter (fun m => m.step ≤ k) = [] →
      (applyMuts (OverflowTable.new true) ms).append_state_into k values
        = values) := by
  have h := (overflow_inv ms hmono).2.2 k
  constructor
  · rw [append_state_into_eq, h]
  · intro hnil
    rw [append_state_into_eq, h, hnil]
    simp [replay]

/-- Witness for `overflow_snapshot_law` at a concrete mutation sequence. -/
theorem overflow_snapshot_law_witness :
    StepsMono [StackMut.push 0 (Felt.new 3), StackMut.pop 1] ∧
    (applyMuts (OverflowTable.new true)
        [StackMut.push 0 (Felt.new 3), StackMut.pop 1]).append_state_into 0 []
      = [] ++ replay []
          ([StackMut.push 0 (Felt.new 3), StackMut.pop 1].filter
            (fun m => m.step ≤ 0)) :=
  ⟨by decide,
   (overflow_snapshot_law [StackMut.push 0 (Felt.new 3), StackMut.pop 1]
     (by decide) 0 []).1⟩
